import Mathlib

/-! Verification development for the `performer` sequencer firmware.

Shallow embedding of

* `src/apps/sequencer/model/Serialize.h` (the fixed-length array codec), and
* `src/apps/sequencer/ui/pages/TextInputPage.cpp` (the text-entry editor),

followed by the lemmas and theorems about them.

Conventions of the embedding:

* a C++ reference parameter that is mutated becomes an argument that is returned
  (explicit state passing);
* `std::array<T, N>` is a list of exactly `N` elements, indexed from `0`;
* a `for` loop is a recursive function over the loop counter, with a fuel argument
  that bounds the number of iterations;
* `int` variables are `Int`; an access outside a buffer yields `none`.
-/

set_option autoImplicit false

/-! ## Part 1: `Serialize.h` -/

namespace Serialize

/-- Fixed-size array `std::array<T, N>`: exactly `N` elements. -/
structure StdArray (T : Type) (N : Nat) where
  elems : List T
  size_eq : elems.length = N
deriving DecidableEq

/-- Element access `array[i]` for an index inside the array. -/
def StdArray.get {T : Type} {N : Nat} (array : StdArray T N) (i : Nat) (h : i < N) : T :=
  array.elems.get ⟨i, Nat.lt_of_lt_of_eq h array.size_eq.symm⟩

/-- Assignment `array[i] = value`. -/
def StdArray.set {T : Type} {N : Nat} (array : StdArray T N) (i : Nat) (value : T) :
    StdArray T N :=
  ⟨array.elems.set i value, (List.length_set array.elems i value).trans array.size_eq⟩

/-- Modelled from the spec: the `Writer` type (`VersionedSerializedWriter<fs::FileWriter>`,
whose header `core/io/VersionedSerializedWriter.h` is not among the sources), seen as a
Write Context over an in-memory Byte Channel: the sequential sink is the list of bytes
written so far, and `calls` is the instrumentation that counts primitive calls. -/
structure Writer where
  bytes : List UInt8
  calls : Nat
deriving DecidableEq

/-- Modelled from the spec: the single primitive of the Write Context for one raw byte,
`writer.write(uint8_t)`, missing from the sources: it forwards the byte to the channel,
which appends it. -/
def Writer.write (w : Writer) (value : UInt8) : Writer :=
  { bytes := w.bytes ++ [value], calls := w.calls + 1 }

/-- Modelled from the spec: the `Reader` type (`VersionedSerializedReader<fs::FileReader>`,
whose header `core/io/VersionedSerializedReader.h` is not among the sources), seen as a
Read Context over an in-memory Byte Channel: `data` is the content of the channel, `pos`
the cursor, `failed` the error state, `version` the Format Version recovered from the
header, and `calls` the instrumentation that counts primitive calls. -/
structure Reader where
  data : List UInt8
  pos : Nat
  failed : Bool
  version : Nat
  calls : Nat
deriving DecidableEq

/-- Modelled from the spec: the single primitive of the Read Context for one raw byte,
`reader.read(uint8_t &)`, missing from the sources. On a failed context it is a no-op that
preserves the failure; at the end of the data the context enters the failed state and the
target is left as it was; otherwise the byte under the cursor is stored in the target and
the cursor advances by one. -/
def Reader.read (r : Reader) (value : UInt8) : UInt8 × Reader :=
  if r.failed then
    (value, { r with calls := r.calls + 1 })
  else
    match r.data.get? r.pos with
    | some b => (b, { r with pos := r.pos + 1, calls := r.calls + 1 })
    | none => (value, { r with failed := true, calls := r.calls + 1 })

/-- The bytes between the cursor and the end of the channel. -/
def Reader.remaining (r : Reader) : List UInt8 :=
  r.data.drop r.pos

/-- A fresh writer on an empty channel. -/
def Writer.empty : Writer :=
  { bytes := [], calls := 0 }

/-- A fresh reader positioned at the start of `data`. -/
def Reader.over (data : List UInt8) (version : Nat) : Reader :=
  { data := data, pos := 0, failed := false, version := version, calls := 0 }

/-- The struct `WriteContext { Writer &writer; }`: the writer, held by reference. -/
structure WriteContext where
  writer : Writer
deriving DecidableEq

/-- The struct `ReadContext { Reader &reader; }`: the reader, held by reference. -/
structure ReadContext where
  reader : Reader
deriving DecidableEq

/-- Loop of the generic `writeArray`:
`for (size_t i = ...; i < array.size(); ++i) { array[i].write(context); }`,
started at counter `i`; `write` is the element type's own `write` method. -/
def writeArrayLoop {T : Type} {N : Nat} (write : T → WriteContext → WriteContext)
    (array : StdArray T N) : Nat → Nat → WriteContext → WriteContext
  | 0, _, context => context
  | fuel + 1, i, context =>
    if h : i < N then
      writeArrayLoop write array fuel (i + 1) (write (array.get i h) context)
    else
      context

/-- Generic `writeArray<T, N>(WriteContext &context, const std::array<T, N> &array)`.
The counter runs from `0` to `N`, so `N` iterations of fuel are enough. -/
def writeArray {T : Type} {N : Nat} (write : T → WriteContext → WriteContext)
    (context : WriteContext) (array : StdArray T N) : WriteContext :=
  writeArrayLoop write array N 0 context

/-- Loop of the byte overload of `writeArray`:
`for (size_t i = ...; i < array.size(); ++i) { context.writer.write(array[i]); }`. -/
def writeArrayU8Loop {N : Nat} (array : StdArray UInt8 N) :
    Nat → Nat → WriteContext → WriteContext
  | 0, _, context => context
  | fuel + 1, i, context =>
    if h : i < N then
      writeArrayU8Loop array fuel (i + 1) { writer := context.writer.write (array.get i h) }
    else
      context

/-- Byte overload
`writeArray<N>(WriteContext &context, const std::array<uint8_t, N> &array)`. -/
def writeArrayU8 {N : Nat} (context : WriteContext) (array : StdArray UInt8 N) : WriteContext :=
  writeArrayU8Loop array N 0 context

/-- Loop of the generic `readArray`:
`for (size_t i = ...; i < array.size(); ++i) { array[i].read(context); }`;
`read` is the element type's own `read` method, which updates the element in place. -/
def readArrayLoop {T : Type} {N : Nat} (read : T → ReadContext → T × ReadContext) :
    Nat → Nat → StdArray T N × ReadContext → StdArray T N × ReadContext
  | 0, _, state => state
  | fuel + 1, i, (array, context) =>
    if h : i < N then
      readArrayLoop read fuel (i + 1)
        (array.set i (read (array.get i h) context).1, (read (array.get i h) context).2)
    else
      (array, context)

/-- Generic `readArray<T, N>(ReadContext &context, std::array<T, N> &array)`. -/
def readArray {T : Type} {N : Nat} (read : T → ReadContext → T × ReadContext)
    (context : ReadContext) (array : StdArray T N) : StdArray T N × ReadContext :=
  readArrayLoop read N 0 (array, context)

/-- Loop of the byte overload of `readArray`:
`for (size_t i = ...; i < array.size(); ++i) { context.reader.read(array[i]); }`. -/
def readArrayU8Loop {N : Nat} :
    Nat → Nat → StdArray UInt8 N × ReadContext → StdArray UInt8 N × ReadContext
  | 0, _, state => state
  | fuel + 1, i, (array, context) =>
    if h : i < N then
      readArrayU8Loop fuel (i + 1)
        (array.set i (context.reader.read (array.get i h)).1,
          { reader := (context.reader.read (array.get i h)).2 })
    else
      (array, context)

/-- Byte overload `readArray<N>(ReadContext &context, std::array<uint8_t, N> &array)`. -/
def readArrayU8 {N : Nat} (context : ReadContext) (array : StdArray UInt8 N) :
    StdArray UInt8 N × ReadContext :=
  readArrayU8Loop N 0 (array, context)

/-- A byte seen as an element with its own `write`: one primitive write. -/
def byteWrite (value : UInt8) (context : WriteContext) : WriteContext :=
  { writer := context.writer.write value }

/-- A byte seen as an element with its own `read`: one primitive read. -/
def byteRead (value : UInt8) (context : ReadContext) : UInt8 × ReadContext :=
  ((context.reader.read value).1, { reader := (context.reader.read value).2 })

/-- Sequential composition of the elements' `read`, first element first: the updated
elements and the final context. -/
def readSeq {T : Type} (read : T → ReadContext → T × ReadContext) :
    List T → ReadContext → List T × ReadContext
  | [], context => ([], context)
  | e :: es, context =>
    ((read e context).1 :: (readSeq read es (read e context).2).1,
      (readSeq read es (read e context).2).2)


/-- An element codec round-trips: whatever the context, `write e` appends some bytes `bs`
to the channel, and `read` on any healthy reader whose remaining bytes start with `bs`
returns an element equal to `e`, consumes exactly `bs` (the cursor advances by the length
of `bs`), leaves the channel content untouched and does not fail. -/
def RoundTrips {T : Type} (write : T → WriteContext → WriteContext)
    (read : T → ReadContext → T × ReadContext) : Prop :=
  ∀ (e : T) (w : WriteContext), ∃ bs : List UInt8,
    (write e w).writer.bytes = w.writer.bytes ++ bs
      ∧ ∀ (target : T) (r : ReadContext) (rest : List UInt8),
          r.reader.failed = false → r.reader.remaining = bs ++ rest →
            (read target r).1 = e
              ∧ (read target r).2.reader.data = r.reader.data
              ∧ (read target r).2.reader.pos = r.reader.pos + bs.length
              ∧ (read target r).2.reader.failed = false

end Serialize

/-! ## Part 2: `TextInputPage.cpp` -/

/-- The terminator `'\0'` of a C string. -/
def NUL : Char := Char.ofNat 0

/-- The table `static const char characterSet[]`: the 38 characters that can be
entered. -/
def characterSet : List Char :=
  ['A', 'B', 'C', 'D', 'E', 'F', 'G', 'H', 'I', 'J', 'K', 'L', 'M', 'N', 'O', 'P', 'Q', 'R',
   'S', 'T', 'U', 'V', 'W', 'X', 'Y', 'Z',
   '0', '1', '2', '3', '4', '5', '6', '7', '8', '9',
   '-', ' ']

/-- The constant `sizeof(characterSet)`, a `size_t`. -/
def sizeofCharacterSet : Nat := characterSet.length

/-- Conversion of an integer value to `size_t`, an unsigned type of `w` bits: the value
modulo `2 ^ w`. -/
def toSizeT (w : Nat) (x : Int) : Int := x % 2 ^ w

/-- Read `buffer[i]`; `none` when the index is outside the buffer. -/
def readAt (buffer : List Char) (i : Int) : Option Char :=
  if 0 ≤ i then buffer.get? i.toNat else none

/-- Assignment `buffer[i] = c`; `none` when the index is outside the buffer. -/
def writeAt (buffer : List Char) (i : Int) (c : Char) : Option (List Char) :=
  if 0 ≤ i ∧ i.toNat < buffer.length then some (buffer.set i.toNat c) else none

/-- The function `std::strlen` on a buffer: the index of the first `'\0'`; `none` when the
buffer holds no `'\0'`, where the scan runs past its end. -/
def strlen : List Char → Option Nat
  | [] => none
  | c :: cs => if c = NUL then some 0 else (strlen cs).map (· + 1)

/-- The C string held in a buffer: the characters before the first `'\0'`. -/
def cstr (buffer : List Char) : List Char :=
  buffer.takeWhile (· ≠ NUL)

/-- The data members of `TextInputPage` that the editing operations use: the buffer
`_text` (its capacity `sizeof(_text)` is the length of the list) and the `int` members
`_maxTextLength`, `_selectedIndex` and `_cursorIndex`. The title and the callback are
pointers handed through to the caller and play no part in editing. -/
structure TextInputPage where
  text : List Char
  maxTextLength : Int
  selectedIndex : Int
  cursorIndex : Int
deriving DecidableEq

/-- The method `TextInputPage::show`, with the helper `StringUtils::copy(dst, src, len)`,
which is not among the sources, taken as the parameter `copy`:
`StringUtils::copy(_text, text, sizeof(_text));`
`_maxTextLength = std::min(sizeof(_text) - 1, maxTextLength);`
`_selectedIndex = 0; _cursorIndex = std::strlen(_text);`.
The capacity `sizeof(_text)` of a C array is at least 1, and the lengths involved fit
an `int`. -/
def TextInputPage.show (copy : List Char → List Char → Nat → List Char) (s : TextInputPage)
    (text : List Char) (maxTextLength : Nat) : Option TextInputPage :=
  let buffer := copy s.text text s.text.length
  (strlen buffer).map fun len =>
    { text := buffer
      maxTextLength := Int.ofNat (min (s.text.length - 1) maxTextLength)
      selectedIndex := 0
      cursorIndex := Int.ofNat len }

namespace TextInputPage

/-- The method `TextInputPage::encoder`:
`_selectedIndex = (_selectedIndex + event.value() + sizeof(characterSet)) % sizeof(characterSet);`
The sum of the two `int`s is converted to `size_t` (`w` bits), the addition of
`sizeof(characterSet)` and the remainder are computed in `size_t`, and the result is
stored back into the `int`. -/
def encoder (w : Nat) (s : TextInputPage) (value : Int) : TextInputPage :=
  { s with
    selectedIndex :=
      toSizeT w (toSizeT w (s.selectedIndex + value) + sizeofCharacterSet)
        % sizeofCharacterSet }

/-- The method `TextInputPage::closeWithResult`: closes the page and hands `_text` to the
callback; the editor state is not changed. -/
def closeWithResult (s : TextInputPage) (_result : Bool) : TextInputPage := s

/-- The method `TextInputPage::clear`: `_cursorIndex = 0; _text[0] = '\0';`. -/
def clear (s : TextInputPage) : Option TextInputPage :=
  (writeAt s.text 0 NUL).map fun text => { s with text := text, cursorIndex := 0 }

/-- Loop of `insert`: `for (int i = ...; i > _cursorIndex; --i) { _text[i] = _text[i - 1]; }`
at counter `i`. The result is `none` on an access outside the buffer, and when the fuel
does not suffice to reach the end of the loop. -/
def insertLoop (cursorIndex : Int) : Nat → Int → List Char → Option (List Char)
  | 0, i, text => if i > cursorIndex then none else some text
  | fuel + 1, i, text =>
    if i > cursorIndex then
      (readAt text (i - 1)).bind fun c =>
        (writeAt text i c).bind fun text => insertLoop cursorIndex fuel (i - 1) text
    else
      some text

/-- The method `TextInputPage::insert`:
`if (_cursorIndex < _maxTextLength && int(std::strlen(_text)) < _maxTextLength)` guards the
loop, the assignment `_text[_cursorIndex] = c` and `++_cursorIndex`; `&&` evaluates
`strlen` only when its left operand holds. The loop counter runs from `_maxTextLength`
down to `_cursorIndex`, which takes `_maxTextLength - _cursorIndex` iterations. -/
def insert (s : TextInputPage) (c : Char) : Option TextInputPage :=
  if s.cursorIndex < s.maxTextLength then
    (strlen s.text).bind fun len =>
      if Int.ofNat len < s.maxTextLength then
        (insertLoop s.cursorIndex (s.maxTextLength - s.cursorIndex).toNat
            s.maxTextLength s.text).bind fun text =>
          (writeAt text s.cursorIndex c).map fun text =>
            { s with text := text, cursorIndex := s.cursorIndex + 1 }
      else
        some s
  else
    some s

/-- The loop shared by `backspace` and `del`:
`for (int i = ...; i < _maxTextLength; ++i) { _text[i] = _text[i + 1]; }` at counter `i`.
The result is `none` on an access outside the buffer, and when the fuel does not suffice
to reach the end of the loop. -/
def removeLoop (maxTextLength : Int) : Nat → Int → List Char → Option (List Char)
  | 0, i, text => if i < maxTextLength then none else some text
  | fuel + 1, i, text =>
    if i < maxTextLength then
      (readAt text (i + 1)).bind fun c =>
        (writeAt text i c).bind fun text => removeLoop maxTextLength fuel (i + 1) text
    else
      some text

/-- The method `TextInputPage::backspace`: when `_cursorIndex > 0`, `--_cursorIndex` and
then the loop from the new `_cursorIndex` up to `_maxTextLength`. -/
def backspace (s : TextInputPage) : Option TextInputPage :=
  if s.cursorIndex > 0 then
    (removeLoop s.maxTextLength (s.maxTextLength - (s.cursorIndex - 1)).toNat
        (s.cursorIndex - 1) s.text).map fun text =>
      { s with text := text, cursorIndex := s.cursorIndex - 1 }
  else
    some s

/-- The method `TextInputPage::del`: when `_text[_cursorIndex] != '\0'`, the loop from
`_cursorIndex` up to `_maxTextLength`. -/
def del (s : TextInputPage) : Option TextInputPage :=
  (readAt s.text s.cursorIndex).bind fun c =>
    if c ≠ NUL then
      (removeLoop s.maxTextLength (s.maxTextLength - s.cursorIndex).toNat
          s.cursorIndex s.text).map fun text => { s with text := text }
    else
      some s

/-- The method `TextInputPage::moveLeft`: `_cursorIndex = std::max(0, _cursorIndex - 1);`. -/
def moveLeft (s : TextInputPage) : TextInputPage :=
  { s with cursorIndex := max 0 (s.cursorIndex - 1) }

/-- The method `TextInputPage::moveRight`:
`if (_text[_cursorIndex] != '\0') { ++_cursorIndex; }`. -/
def moveRight (s : TextInputPage) : Option TextInputPage :=
  (readAt s.text s.cursorIndex).map fun c =>
    if c ≠ NUL then { s with cursorIndex := s.cursorIndex + 1 } else s

/-- What `keyPress` asks of the pressed key (`event.key()`, of the class `Key`, which is
not among the sources): `isFunction()`, `function()`, `isLeft()`, `isRight()` and
`is(Key::Encoder)`. -/
structure Key where
  isFunction : Bool
  function : Int
  isLeft : Bool
  isRight : Bool
  isEncoder : Bool
deriving DecidableEq

/-- The lookup `characterSet[i]`; `none` when the index is outside the table. -/
def characterAt (i : Int) : Option Char :=
  readAt characterSet i

/-- The method `TextInputPage::keyPress`: the function keys (`enum class Function`:
`Backspace = 0`, `Delete = 1`, `Clear = 2`, `Cancel = 3`, `OK = 4`), then left, right,
and the encoder button, which inserts `characterSet[_selectedIndex]`. -/
def keyPress (s : TextInputPage) (key : Key) : Option TextInputPage :=
  (if key.isFunction then
      (if key.function = 0 then backspace s
        else if key.function = 1 then del s
        else if key.function = 2 then clear s
        else if key.function = 3 then some (closeWithResult s false)
        else if key.function = 4 then some (closeWithResult s true)
        else some s)
    else some s).bind fun s =>
  (if key.isLeft then some (moveLeft s) else some s).bind fun s =>
  (if key.isRight then moveRight s else some s).bind fun s =>
  if key.isEncoder then
    (characterAt s.selectedIndex).bind fun c => insert s c
  else
    some s

/-- The editor invariant on a buffer of capacity `sizeof(_text)`: the buffer holds a
`'\0'`, and `0 <= _cursorIndex <= strlen(_text) <= _maxTextLength <= sizeof(_text) - 1`. -/
def Inv (s : TextInputPage) : Prop :=
  match strlen s.text with
  | some len =>
    0 ≤ s.cursorIndex ∧ s.cursorIndex ≤ Int.ofNat len ∧ Int.ofNat len ≤ s.maxTextLength
      ∧ s.maxTextLength ≤ Int.ofNat s.text.length - 1
  | none => False

instance (s : TextInputPage) : Decidable (Inv s) := by
  unfold Inv
  split <;> infer_instance

/-- The states of the page that can be reached: a state left by `show`, and every state
that `encoder` or `keyPress` leaves when started in a reachable state. -/
inductive Reachable (w : Nat) (copy : List Char → List Char → Nat → List Char) :
    TextInputPage → Prop
  | shown (s0 : TextInputPage) (text : List Char) (maxTextLength : Nat) (s : TextInputPage) :
      TextInputPage.show copy s0 text maxTextLength = some s → Reachable w copy s
  | encoder (s : TextInputPage) (value : Int) :
      Reachable w copy s → Reachable w copy (encoder w s value)
  | keyPress (s : TextInputPage) (key : Key) (s1 : TextInputPage) :
      Reachable w copy s → keyPress s key = some s1 → Reachable w copy s1

/-- A bounded string copy in the manner of `strncpy(dst, src, len)` followed by
`dst[len - 1] = '\0'`: the first `len` cells of `dst` receive the characters of the string
`src`, padded with `'\0'`, the last of them is set to `'\0'`, and the cells from `len` on
are left as they were. It is one possible value for the parameter `copy` of `show`. -/
def boundedCopy (dst src : List Char) (len : Nat) : List Char :=
  if len = 0 then dst
  else (((cstr src ++ List.replicate len NUL).take len) ++ dst.drop len).set (len - 1) NUL

end TextInputPage

/-! ## Part 3: lemmas and theorems about `Serialize.h` -/

namespace Serialize

/-! ### The loops are the sequential composition over the elements -/

section Lemmas

variable {T : Type} {N : Nat}

theorem StdArray.drop_eq_get_cons (array : StdArray T N) (i : Nat) (h : i < N) :
    array.elems.drop i = array.get i h :: array.elems.drop (i + 1) := by
  have hi : i < array.elems.length := Nat.lt_of_lt_of_eq h array.size_eq.symm
  rw [List.drop_eq_getElem_cons hi]; rfl

theorem StdArray.ext_elems {a b : StdArray T N} (h : a.elems = b.elems) : a = b := by
  cases a; cases b; cases h; rfl

theorem drop_succ_set_self {α : Type} (l : List α) (i : Nat) (v : α) :
    (l.set i v).drop (i + 1) = l.drop (i + 1) :=
  List.drop_set_of_lt v l (Nat.lt_succ_self i)

theorem take_succ_set_self {α : Type} (l : List α) (i : Nat) (v : α) (hi : i < l.length) :
    (l.set i v).take (i + 1) = l.take i ++ [v] := by
  rw [List.set_eq_take_append_cons_drop, if_pos hi]
  have hlen : (l.take i).length = i := by simp; omega
  rw [List.take_append_eq_append_take, hlen]
  simp

theorem writeArrayLoop_eq_foldl (write : T → WriteContext → WriteContext)
    (array : StdArray T N) :
    ∀ (fuel i : Nat) (context : WriteContext), N - i ≤ fuel →
      writeArrayLoop write array fuel i context
        = (array.elems.drop i).foldl (fun c e => write e c) context := by
  intro fuel
  induction fuel with
  | zero =>
    intro i context hf
    have hle : array.elems.length ≤ i := by rw [array.size_eq]; omega
    simp [writeArrayLoop, List.drop_eq_nil_of_le hle]
  | succ fuel ih =>
    intro i context hf
    by_cases h : i < N
    · rw [writeArrayLoop, dif_pos h, ih (i + 1) _ (by omega),
        StdArray.drop_eq_get_cons array i h, List.foldl_cons]
    · have hle : array.elems.length ≤ i := by rw [array.size_eq]; omega
      simp [writeArrayLoop, h, List.drop_eq_nil_of_le hle]

theorem writeArrayU8Loop_eq_generic (array : StdArray UInt8 N) :
    ∀ (fuel i : Nat) (context : WriteContext),
      writeArrayU8Loop array fuel i context = writeArrayLoop byteWrite array fuel i context := by
  intro fuel
  induction fuel with
  | zero => intro i context; rfl
  | succ fuel ih =>
    intro i context
    by_cases h : i < N
    · rw [writeArrayU8Loop, writeArrayLoop, dif_pos h, dif_pos h, ih]; rfl
    · rw [writeArrayU8Loop, writeArrayLoop, dif_neg h, dif_neg h]

theorem readArrayU8Loop_eq_generic :
    ∀ (fuel i : Nat) (state : StdArray UInt8 N × ReadContext),
      readArrayU8Loop fuel i state = readArrayLoop byteRead fuel i state := by
  intro fuel
  induction fuel with
  | zero => intro i state; rfl
  | succ fuel ih =>
    intro i state
    obtain ⟨array, context⟩ := state
    by_cases h : i < N
    · rw [readArrayU8Loop, readArrayLoop, dif_pos h, dif_pos h, ih]; rfl
    · rw [readArrayU8Loop, readArrayLoop, dif_neg h, dif_neg h]

theorem readArrayLoop_eq_readSeq (read : T → ReadContext → T × ReadContext) :
    ∀ (fuel i : Nat) (array : StdArray T N) (context : ReadContext), N - i ≤ fuel →
      (readArrayLoop read fuel i (array, context)).1.elems
          = array.elems.take i ++ (readSeq read (array.elems.drop i) context).1
        ∧ (readArrayLoop read fuel i (array, context)).2
          = (readSeq read (array.elems.drop i) context).2 := by
  intro fuel
  induction fuel with
  | zero =>
    intro i array context hf
    have hle : array.elems.length ≤ i := by rw [array.size_eq]; omega
    simp [readArrayLoop, List.drop_eq_nil_of_le hle, readSeq, List.take_of_length_le hle]
  | succ fuel ih =>
    intro i array context hf
    by_cases h : i < N
    · have hi : i < array.elems.length := Nat.lt_of_lt_of_eq h array.size_eq.symm
      rw [readArrayLoop, dif_pos h]
      obtain ⟨h1, h2⟩ := ih (i + 1)
        (array.set i (read (array.get i h) context).1) (read (array.get i h) context).2
        (by omega)
      rw [h1, h2, StdArray.drop_eq_get_cons array i h, readSeq]
      have hd : (array.set i (read (array.get i h) context).1).elems.drop (i + 1)
          = array.elems.drop (i + 1) := drop_succ_set_self _ _ _
      have ht : (array.set i (read (array.get i h) context).1).elems.take (i + 1)
          = array.elems.take i ++ [(read (array.get i h) context).1] :=
        take_succ_set_self _ _ _ hi
      rw [hd, ht]
      simp
    · have hle : array.elems.length ≤ i := by rw [array.size_eq]; omega
      simp [readArrayLoop, h, List.drop_eq_nil_of_le hle, readSeq, List.take_of_length_le hle]

theorem writeArray_eq_foldl (write : T → WriteContext → WriteContext)
    (context : WriteContext) (array : StdArray T N) :
    writeArray write context array = array.elems.foldl (fun c e => write e c) context := by
  have h := writeArrayLoop_eq_foldl write array N 0 context (by omega)
  simpa [writeArray] using h

theorem readArray_eq_readSeq (read : T → ReadContext → T × ReadContext)
    (context : ReadContext) (array : StdArray T N) :
    (readArray read context array).1.elems = (readSeq read array.elems context).1
      ∧ (readArray read context array).2 = (readSeq read array.elems context).2 := by
  have h := readArrayLoop_eq_readSeq read N 0 array context (by omega)
  simpa [readArray] using h

theorem writeArrayU8_eq_generic (context : WriteContext) (array : StdArray UInt8 N) :
    writeArrayU8 context array = writeArray byteWrite context array :=
  writeArrayU8Loop_eq_generic array N 0 context

theorem readArrayU8_eq_generic (context : ReadContext) (array : StdArray UInt8 N) :
    readArrayU8 context array = readArray byteRead context array :=
  readArrayU8Loop_eq_generic N 0 (array, context)

theorem readSeq_snd_eq_foldl (read : T → ReadContext → T × ReadContext) :
    ∀ (l : List T) (context : ReadContext),
      (readSeq read l context).2 = l.foldl (fun c e => (read e c).2) context := by
  intro l
  induction l with
  | nil => intro context; rfl
  | cons e es ih => intro context; rw [readSeq, List.foldl_cons]; exact ih _

theorem readSeq_fst_length (read : T → ReadContext → T × ReadContext) :
    ∀ (l : List T) (context : ReadContext), (readSeq read l context).1.length = l.length := by
  intro l
  induction l with
  | nil => intro context; rfl
  | cons e es ih => intro context; simp [readSeq, ih]

theorem readSeq_fst_get? (read : T → ReadContext → T × ReadContext) :
    ∀ (l : List T) (context : ReadContext) (i : Nat),
      (readSeq read l context).1.get? i
        = (l.get? i).map
            (fun e => (read e ((l.take i).foldl (fun c e => (read e c).2) context)).1) := by
  intro l
  induction l with
  | nil => intro context i; simp [readSeq]
  | cons e es ih =>
    intro context i
    cases i with
    | zero => simp [readSeq]
    | succ i => simpa [readSeq] using ih (read e context).2 i

end Lemmas


/-! ### The byte primitives -/

theorem Reader.read_of_failed (r : Reader) (value : UInt8) (h : r.failed = true) :
    r.read value = (value, { r with calls := r.calls + 1 }) := by
  simp [Reader.read, h]

theorem Reader.read_of_cons (r : Reader) (value b : UInt8) (rest : List UInt8)
    (hf : r.failed = false) (h : r.remaining = b :: rest) :
    r.read value = (b, { r with pos := r.pos + 1, calls := r.calls + 1 }) := by
  have hget : r.data[r.pos]? = some b := by
    have h1 : (r.data.drop r.pos).head? = some b := by
      rw [show r.data.drop r.pos = b :: rest from h]; rfl
    rw [← List.head?_drop]; exact h1
  simp [Reader.read, hf, hget]

theorem Reader.read_of_nil (r : Reader) (value : UInt8)
    (hf : r.failed = false) (h : r.remaining = []) :
    r.read value = (value, { r with failed := true, calls := r.calls + 1 }) := by
  have hget : r.data[r.pos]? = none := by
    have hle : r.data.length ≤ r.pos := List.drop_eq_nil_iff.mp h
    exact List.getElem?_eq_none hle
  simp [Reader.read, hf, hget]

theorem Reader.read_calls (r : Reader) (value : UInt8) :
    (r.read value).2.calls = r.calls + 1 := by
  unfold Reader.read
  split
  · rfl
  · split <;> rfl

theorem foldl_byteWrite (l : List UInt8) :
    ∀ (context : WriteContext),
      (l.foldl (fun c e => byteWrite e c) context).writer.bytes = context.writer.bytes ++ l
        ∧ (l.foldl (fun c e => byteWrite e c) context).writer.calls
          = context.writer.calls + l.length := by
  induction l with
  | nil => intro context; simp
  | cons e es ih =>
    intro context
    obtain ⟨h1, h2⟩ := ih (byteWrite e context)
    rw [List.foldl_cons, h1, h2]
    simp [byteWrite, Writer.write]
    omega

theorem readSeq_byteRead_calls (l : List UInt8) :
    ∀ (context : ReadContext),
      (readSeq byteRead l context).2.reader.calls = context.reader.calls + l.length := by
  induction l with
  | nil => intro context; rfl
  | cons e es ih =>
    intro context
    rw [readSeq, ih]
    simp [byteRead, Reader.read_calls]
    omega

theorem readSeq_byteRead_of_failed (l : List UInt8) :
    ∀ (context : ReadContext), context.reader.failed = true →
      (readSeq byteRead l context).1 = l
        ∧ (readSeq byteRead l context).2.reader.failed = true := by
  induction l with
  | nil => intro context hf; exact ⟨rfl, hf⟩
  | cons e es ih =>
    intro context hf
    have hr := Reader.read_of_failed context.reader e hf
    obtain ⟨h1, h2⟩ := ih (byteRead e context).2 (by simp [byteRead, hr, hf])
    rw [readSeq, h1, h2]
    simp [byteRead, hr]

theorem readSeq_byteRead_of_enough (l : List UInt8) :
    ∀ (context : ReadContext), context.reader.failed = false →
      l.length ≤ context.reader.remaining.length →
      (readSeq byteRead l context).1 = context.reader.remaining.take l.length
        ∧ (readSeq byteRead l context).2.reader
          = { context.reader with
                pos := context.reader.pos + l.length,
                calls := context.reader.calls + l.length } := by
  induction l with
  | nil => intro context hf hlen; simp [readSeq]
  | cons e es ih =>
    intro context hf hlen
    cases hrem : context.reader.remaining with
    | nil => rw [hrem] at hlen; simp at hlen
    | cons b rest =>
      have hr := Reader.read_of_cons context.reader e b rest hf hrem
      have hrem2 : (byteRead e context).2.reader.remaining = rest := by
        have hd : context.reader.data.drop (context.reader.pos + 1) = rest := by
          rw [← List.drop_drop]
          rw [show context.reader.data.drop context.reader.pos = b :: rest from hrem]
          rfl
        simpa [byteRead, hr, Reader.remaining, Nat.add_comm] using hd
      have hlen2 : es.length ≤ (byteRead e context).2.reader.remaining.length := by
        rw [hrem2]; rw [hrem] at hlen; simpa using hlen
      obtain ⟨h1, h2⟩ := ih (byteRead e context).2 (by simp [byteRead, hr, hf]) hlen2
      rw [readSeq, h1, h2, hrem2]
      simp [byteRead, hr]
      omega

theorem readSeq_byteRead_of_short (l : List UInt8) :
    ∀ (context : ReadContext), context.reader.failed = false →
      context.reader.remaining.length < l.length →
      (readSeq byteRead l context).2.reader.failed = true := by
  induction l with
  | nil => intro context hf hlen; simp at hlen
  | cons e es ih =>
    intro context hf hlen
    cases hrem : context.reader.remaining with
    | nil =>
      have hr := Reader.read_of_nil context.reader e hf hrem
      rw [readSeq]
      exact (readSeq_byteRead_of_failed es (byteRead e context).2
        (by simp [byteRead, hr])).2
    | cons b rest =>
      have hr := Reader.read_of_cons context.reader e b rest hf hrem
      have hrem2 : (byteRead e context).2.reader.remaining = rest := by
        have hd : context.reader.data.drop (context.reader.pos + 1) = rest := by
          rw [← List.drop_drop]
          rw [show context.reader.data.drop context.reader.pos = b :: rest from hrem]
          rfl
        simpa [byteRead, hr, Reader.remaining, Nat.add_comm] using hd
      rw [readSeq]
      apply ih (byteRead e context).2 (by simp [byteRead, hr, hf])
      rw [hrem2]; rw [hrem] at hlen; simpa using hlen

theorem writeArrayU8_appends_bytes (N : Nat) (context : WriteContext)
    (array : StdArray UInt8 N) :
    (writeArrayU8 context array).writer.bytes = context.writer.bytes ++ array.elems := by
  rw [writeArrayU8_eq_generic, writeArray_eq_foldl]
  exact (foldl_byteWrite array.elems context).1


/-! ### Claims about the array codec -/

/-- C1: the byte overload of `writeArray` issues exactly `N` single-byte writes, one per
element in ascending index order, and nothing else: the bytes of the channel after the call
are the bytes before the call followed by `array[0], ..., array[N-1]`, the primitive was
called `N` times, and the output grew by exactly `N` bytes (no length prefix, no extra
byte). -/
theorem writeArrayU8_appends_elements (N : Nat) (context : WriteContext)
    (array : StdArray UInt8 N) :
    (writeArrayU8 context array).writer.bytes = context.writer.bytes ++ array.elems
      ∧ (writeArrayU8 context array).writer.calls = context.writer.calls + N
      ∧ (writeArrayU8 context array).writer.bytes.length = context.writer.bytes.length + N
      ∧ writeArrayU8 context array
        = array.elems.foldl (fun c e => { writer := c.writer.write e }) context := by
  have hg : writeArrayU8 context array
      = array.elems.foldl (fun c e => byteWrite e c) context := by
    rw [writeArrayU8_eq_generic, writeArray_eq_foldl]
  obtain ⟨h1, h2⟩ := foldl_byteWrite array.elems context
  refine ⟨?_, ?_, ?_, hg⟩
  · rw [hg, h1]
  · rw [hg, h2, array.size_eq]
  · rw [hg, h1, List.length_append, array.size_eq]

/-- C2: the generic `writeArray` is the sequential composition of `array[0].write`, ...,
`array[N-1].write` on one and the same context, and the generic `readArray` is the
sequential composition of the elements' `read`: the final context is obtained by threading
the context through the reads in ascending index order, and element `i` of the result is
what `array[i].read` returns on the context left by the reads of the elements before it. -/
theorem writeArray_readArray_sequential (T : Type) (N : Nat)
    (write : T → WriteContext → WriteContext) (read : T → ReadContext → T × ReadContext)
    (wcontext : WriteContext) (rcontext : ReadContext) (array : StdArray T N) :
    writeArray write wcontext array = array.elems.foldl (fun c e => write e c) wcontext
      ∧ (readArray read rcontext array).2
        = array.elems.foldl (fun c e => (read e c).2) rcontext
      ∧ ∀ (i : Nat) (h : i < N),
          (readArray read rcontext array).1.get i h
            = (read (array.get i h)
                ((array.elems.take i).foldl (fun c e => (read e c).2) rcontext)).1 := by
  obtain ⟨h1, h2⟩ := readArray_eq_readSeq read rcontext array
  refine ⟨writeArray_eq_foldl write wcontext array, ?_, ?_⟩
  · rw [h2, readSeq_snd_eq_foldl]
  · intro i h
    have hi : i < array.elems.length := Nat.lt_of_lt_of_eq h array.size_eq.symm
    have hg := readSeq_fst_get? read array.elems rcontext i
    rw [← h1] at hg
    have hi2 : i < (readArray read rcontext array).1.elems.length :=
      Nat.lt_of_lt_of_eq h (readArray read rcontext array).1.size_eq.symm
    rw [List.get?_eq_get hi2, List.get?_eq_get hi] at hg
    simpa [StdArray.get] using hg

/-- Witness for C2: element 1 of a three-byte array read from the channel `[7, 8, 9]`. -/
theorem writeArray_readArray_sequential_witness :
    (readArray byteRead { reader := Reader.over [7, 8, 9] 1 }
        (⟨[0, 0, 0], rfl⟩ : StdArray UInt8 3)).1.get 1 (by decide)
      = (byteRead ((⟨[0, 0, 0], rfl⟩ : StdArray UInt8 3).get 1 (by decide))
          (((⟨[0, 0, 0], rfl⟩ : StdArray UInt8 3).elems.take 1).foldl
            (fun c e => (byteRead e c).2) { reader := Reader.over [7, 8, 9] 1 })).1 :=
  (writeArray_readArray_sequential UInt8 3 byteWrite byteRead { writer := Writer.empty }
    { reader := Reader.over [7, 8, 9] 1 } ⟨[0, 0, 0], rfl⟩).2.2 1 (by decide)

/-- C3: round trip for raw byte sequences: writing `array` with the byte overload of
`writeArray` to an empty channel and reading the written bytes back from their start with
the byte overload of `readArray` fills the target with `array`, without failure and with
the cursor at the end of the written bytes. -/
theorem writeArrayU8_readArrayU8_roundtrip (N : Nat) (array target : StdArray UInt8 N)
    (version : Nat) :
    (readArrayU8
        { reader := Reader.over (writeArrayU8 { writer := Writer.empty } array).writer.bytes
            version } target).1 = array
      ∧ (readArrayU8
        { reader := Reader.over (writeArrayU8 { writer := Writer.empty } array).writer.bytes
            version } target).2.reader.failed = false
      ∧ (readArrayU8
        { reader := Reader.over (writeArrayU8 { writer := Writer.empty } array).writer.bytes
            version } target).2.reader.pos = N := by
  have hw : (writeArrayU8 { writer := Writer.empty } array).writer.bytes = array.elems := by
    rw [(writeArrayU8_appends_bytes N _ array)]; rfl
  rw [hw, readArrayU8_eq_generic]
  obtain ⟨h1, h2⟩ := readArray_eq_readSeq byteRead
    { reader := Reader.over array.elems version } target
  have hlen : target.elems.length
      ≤ (Reader.over array.elems version).remaining.length := by
    simp [Reader.over, Reader.remaining, target.size_eq, array.size_eq]
  obtain ⟨h3, h4⟩ := readSeq_byteRead_of_enough target.elems
    { reader := Reader.over array.elems version } rfl hlen
  refine ⟨?_, ?_, ?_⟩
  · apply StdArray.ext_elems
    rw [h1, h3]
    simp [Reader.over, Reader.remaining, target.size_eq, ← array.size_eq]
  · rw [h2, h4]; rfl
  · rw [h2, h4]; simp [Reader.over, target.size_eq]


theorem roundTrips_list {T : Type} (write : T → WriteContext → WriteContext)
    (read : T → ReadContext → T × ReadContext) (h : RoundTrips write read) :
    ∀ (l : List T) (w : WriteContext), ∃ bs : List UInt8,
      (l.foldl (fun c e => write e c) w).writer.bytes = w.writer.bytes ++ bs
        ∧ ∀ (targets : List T) (r : ReadContext) (rest : List UInt8),
            targets.length = l.length →
            r.reader.failed = false → r.reader.remaining = bs ++ rest →
              (readSeq read targets r).1 = l
                ∧ (readSeq read targets r).2.reader.data = r.reader.data
                ∧ (readSeq read targets r).2.reader.pos = r.reader.pos + bs.length
                ∧ (readSeq read targets r).2.reader.failed = false := by
  intro l
  induction l with
  | nil =>
    intro w
    refine ⟨[], by simp, ?_⟩
    intro targets r rest hlen hf _
    have ht : targets = [] := List.length_eq_zero.mp hlen
    subst ht
    exact ⟨rfl, rfl, rfl, hf⟩
  | cons e es ih =>
    intro w
    obtain ⟨bs1, hw1, hr1⟩ := h e w
    obtain ⟨bs2, hw2, hr2⟩ := ih (write e w)
    refine ⟨bs1 ++ bs2, ?_, ?_⟩
    · rw [List.foldl_cons, hw2, hw1, List.append_assoc]
    · intro targets r rest hlen hf hrem
      cases targets with
      | nil => simp at hlen
      | cons t ts =>
        have hlen2 : ts.length = es.length := by simpa using hlen
        obtain ⟨a1, a2, a3, a4⟩ := hr1 t r (bs2 ++ rest) hf
          (by rw [hrem, List.append_assoc])
        have hrem2 : (read t r).2.reader.remaining = bs2 ++ rest := by
          unfold Reader.remaining at hrem ⊢
          rw [a2, a3, ← List.drop_drop, hrem, List.append_assoc]
          simp
        obtain ⟨b1, b2, b3, b4⟩ := hr2 ts (read t r).2 rest hlen2 a4 hrem2
        refine ⟨?_, ?_, ?_, ?_⟩
        · rw [readSeq, a1, b1]
        · rw [readSeq, b2, a2]
        · rw [readSeq, b3, a3, List.length_append]; omega
        · rw [readSeq, b4]

theorem roundTrips_bytes : RoundTrips byteWrite byteRead := by
  intro e w
  refine ⟨[e], rfl, ?_⟩
  intro target r rest hf hrem
  have hr := Reader.read_of_cons r.reader target e rest hf hrem
  simp [byteRead, hr, hf]

/-- C4: round trip lifts through the generic codec. If the element codec round-trips
(`RoundTrips write read`), then for every `N` the generic `writeArray`/`readArray` pair over
`std::array<T, N>` round-trips in the same sense: `readArray` on a channel that starts with
the bytes `writeArray` produced yields an array equal to the written one and consumes
exactly those bytes. The conclusion has the shape of the hypothesis, so it applies again
to arrays of arrays, at any nesting depth. -/
theorem arrayCodec_roundTrips {T : Type} (write : T → WriteContext → WriteContext)
    (read : T → ReadContext → T × ReadContext) (h : RoundTrips write read) (N : Nat) :
    RoundTrips (fun (array : StdArray T N) context => writeArray write context array)
      (fun (array : StdArray T N) context => readArray read context array) := by
  intro array w
  obtain ⟨bs, hw, hr⟩ := roundTrips_list write read h array.elems w
  refine ⟨bs, ?_, ?_⟩
  · show (writeArray write w array).writer.bytes = w.writer.bytes ++ bs
    rw [writeArray_eq_foldl, hw]
  · intro target r rest hf hrem
    show (readArray read r target).1 = array
      ∧ (readArray read r target).2.reader.data = r.reader.data
      ∧ (readArray read r target).2.reader.pos = r.reader.pos + bs.length
      ∧ (readArray read r target).2.reader.failed = false
    obtain ⟨h1, h2⟩ := readArray_eq_readSeq read r target
    obtain ⟨b1, b2, b3, b4⟩ := hr target.elems r rest
      (target.size_eq.trans array.size_eq.symm) hf hrem
    refine ⟨?_, ?_, ?_, ?_⟩
    · apply StdArray.ext_elems; rw [h1, b1]
    · rw [h2, b2]
    · rw [h2, b3]
    · rw [h2, b4]

/-- Witness for C4: the byte codec round-trips, hence so do arrays of four bytes, and hence
(one nesting level deeper) arrays of three arrays of four bytes. -/
theorem arrayCodec_roundTrips_witness :
    RoundTrips byteWrite byteRead
      ∧ RoundTrips
          (fun (array : StdArray (StdArray UInt8 4) 3) context =>
            writeArray (fun (a : StdArray UInt8 4) c => writeArray byteWrite c a) context array)
          (fun (array : StdArray (StdArray UInt8 4) 3) context =>
            readArray (fun (a : StdArray UInt8 4) c => readArray byteRead c a) context array) :=
  ⟨roundTrips_bytes,
    arrayCodec_roundTrips _ _ (arrayCodec_roundTrips byteWrite byteRead roundTrips_bytes 4) 3⟩


theorem writeArrayLoop_calls {T : Type} {N : Nat} (write : T → WriteContext → WriteContext)
    (a : StdArray T N) (k : Nat → Nat)
    (hw : ∀ (i : Nat) (h : i < N) (w : WriteContext),
      (write (a.get i h) w).writer.calls = w.writer.calls + k i) :
    ∀ (fuel i : Nat) (w : WriteContext), N - i ≤ fuel → i ≤ N →
      (writeArrayLoop write a fuel i w).writer.calls
        = w.writer.calls + ∑ j in Finset.Ico i N, k j := by
  intro fuel
  induction fuel with
  | zero =>
    intro i w hf hi
    have : i = N := by omega
    subst this
    simp [writeArrayLoop]
  | succ fuel ih =>
    intro i w hf hi
    by_cases h : i < N
    · rw [writeArrayLoop, dif_pos h, ih (i + 1) _ (by omega) (by omega), hw i h,
        Finset.sum_eq_sum_Ico_succ_bot h k]
      omega
    · have : i = N := by omega
      subst this
      simp [writeArrayLoop]

theorem readArrayLoop_calls {T : Type} {N : Nat} (read : T → ReadContext → T × ReadContext)
    (b : StdArray T N) (k : Nat → Nat)
    (hr : ∀ (i : Nat) (h : i < N) (r : ReadContext),
      (read (b.get i h) r).2.reader.calls = r.reader.calls + k i) :
    ∀ (fuel i : Nat) (array : StdArray T N) (r : ReadContext), N - i ≤ fuel → i ≤ N →
      array.elems.drop i = b.elems.drop i →
      (readArrayLoop read fuel i (array, r)).2.reader.calls
        = r.reader.calls + ∑ j in Finset.Ico i N, k j := by
  intro fuel
  induction fuel with
  | zero =>
    intro i array r hf hi _
    have : i = N := by omega
    subst this
    simp [readArrayLoop]
  | succ fuel ih =>
    intro i array r hf hi hd
    by_cases h : i < N
    · rw [StdArray.drop_eq_get_cons array i h, StdArray.drop_eq_get_cons b i h] at hd
      have hhead : array.get i h = b.get i h := (List.cons.inj hd).1
      have htail : (array.set i (read (array.get i h) r).1).elems.drop (i + 1)
          = b.elems.drop (i + 1) :=
        (drop_succ_set_self _ _ _).trans (List.cons.inj hd).2
      rw [readArrayLoop, dif_pos h, ih (i + 1) _ _ (by omega) (by omega) htail, hhead,
        hr i h, Finset.sum_eq_sum_Ico_succ_bot h k]
      omega
    · have : i = N := by omega
      subst this
      simp [readArrayLoop]

/-- C5: order symmetry of the array codec, counting primitive calls on the context. The
byte overloads of `writeArray` and `readArray` issue `N` primitive calls each; and for
structured elements, if for every index `i` the `write` of `a[i]` and the `read` into
`b[i]` issue the same number `k i` of primitive calls, then the generic `writeArray` and
`readArray` issue the same total number, the sum of the `k i`. -/
theorem writeArray_readArray_call_counts (N : Nat)
    (wcontext : WriteContext) (rcontext : ReadContext) (array target : StdArray UInt8 N)
    (T : Type) (write : T → WriteContext → WriteContext)
    (read : T → ReadContext → T × ReadContext) (a b : StdArray T N) (k : Nat → Nat) :
    ((writeArrayU8 wcontext array).writer.calls = wcontext.writer.calls + N
        ∧ (readArrayU8 rcontext target).2.reader.calls = rcontext.reader.calls + N)
      ∧ ((∀ (i : Nat) (h : i < N) (w : WriteContext),
            (write (a.get i h) w).writer.calls = w.writer.calls + k i) →
          (∀ (i : Nat) (h : i < N) (r : ReadContext),
            (read (b.get i h) r).2.reader.calls = r.reader.calls + k i) →
          (writeArray write wcontext a).writer.calls
              = wcontext.writer.calls + ∑ i in Finset.range N, k i
            ∧ (readArray read rcontext b).2.reader.calls
              = rcontext.reader.calls + ∑ i in Finset.range N, k i) := by
  refine ⟨⟨?_, ?_⟩, ?_⟩
  · rw [writeArrayU8_eq_generic, writeArray_eq_foldl,
      (foldl_byteWrite array.elems wcontext).2, array.size_eq]
  · rw [readArrayU8_eq_generic, (readArray_eq_readSeq byteRead rcontext target).2,
      readSeq_byteRead_calls, target.size_eq]
  · intro hw hr
    refine ⟨?_, ?_⟩
    · have h := writeArrayLoop_calls write a k hw N 0 wcontext (by omega) (by omega)
      rw [Finset.range_eq_Ico]; exact h
    · have h := readArrayLoop_calls read b k hr N 0 b rcontext (by omega) (by omega) rfl
      rw [Finset.range_eq_Ico]; exact h

/-- Witness for C5: arrays of three bytes seen as structured elements, every element
issuing one primitive call on each side: three calls to write, three calls to read. -/
theorem writeArray_readArray_call_counts_witness :
    (writeArray byteWrite { writer := Writer.empty }
          (⟨[7, 8, 9], rfl⟩ : StdArray UInt8 3)).writer.calls
        = Writer.empty.calls + ∑ i in Finset.range 3, (fun _ => 1) i
      ∧ (readArray byteRead { reader := Reader.over [7, 8, 9] 1 }
          (⟨[0, 0, 0], rfl⟩ : StdArray UInt8 3)).2.reader.calls
        = (Reader.over [7, 8, 9] 1).calls + ∑ i in Finset.range 3, (fun _ => 1) i :=
  (writeArray_readArray_call_counts 3
    { writer := Writer.empty } { reader := Reader.over [7, 8, 9] 1 }
    ⟨[7, 8, 9], rfl⟩ ⟨[0, 0, 0], rfl⟩
    UInt8 byteWrite byteRead ⟨[7, 8, 9], rfl⟩ ⟨[0, 0, 0], rfl⟩ (fun _ => 1)).2
    (fun _ _ _ => rfl)
    (fun _ _ r => Reader.read_calls r.reader _)

/-- C6: on a reader that has not failed and holds at least `N` remaining bytes
`b[0], b[1], ...`, the byte overload of `readArray` issues exactly `N` single-byte reads
in ascending index order: afterwards `array[i] = b[i]` for every `i < N`, the cursor has
advanced by exactly `N`, the bytes after the first `N` are still unconsumed, the channel
content is unchanged and the reader has not failed. -/
theorem readArrayU8_reads_leading_bytes (N : Nat) (context : ReadContext)
    (target : StdArray UInt8 N) (hf : context.reader.failed = false)
    (hlen : N ≤ context.reader.remaining.length) :
    (readArrayU8 context target).1.elems = context.reader.remaining.take N
      ∧ (∀ (i : Nat) (h : i < N),
          context.reader.remaining.get? i = some ((readArrayU8 context target).1.get i h))
      ∧ (readArrayU8 context target).2.reader.pos = context.reader.pos + N
      ∧ (readArrayU8 context target).2.reader.remaining = context.reader.remaining.drop N
      ∧ (readArrayU8 context target).2.reader.data = context.reader.data
      ∧ (readArrayU8 context target).2.reader.failed = false
      ∧ (readArrayU8 context target).2.reader.calls = context.reader.calls + N := by
  obtain ⟨h1, h2⟩ := readArray_eq_readSeq byteRead context target
  obtain ⟨h3, h4⟩ := readSeq_byteRead_of_enough target.elems context hf
    (by rw [target.size_eq]; exact hlen)
  rw [target.size_eq] at h3 h4
  rw [readArrayU8_eq_generic]
  have helems : (readArray byteRead context target).1.elems
      = context.reader.remaining.take N := by rw [h1, h3]
  refine ⟨helems, ?_, ?_, ?_, ?_, ?_, ?_⟩
  · intro i h
    have hi : i < (readArray byteRead context target).1.elems.length :=
      Nat.lt_of_lt_of_eq h (readArray byteRead context target).1.size_eq.symm
    have hg : (readArray byteRead context target).1.elems.get? i
        = context.reader.remaining.get? i := by
      rw [helems, List.get?_eq_getElem?, List.get?_eq_getElem?, List.getElem?_take_of_lt h]
    rw [← hg, List.get?_eq_get hi]
    rfl
  · rw [h2, h4]
  · rw [h2, h4]; simp [Reader.remaining, Nat.add_comm]
  · rw [h2, h4]
  · rw [h2, h4]; exact hf
  · rw [h2, h4]

/-- Witness for C6: four bytes read from a healthy reader that holds five. -/
theorem readArrayU8_reads_leading_bytes_witness :
    (Reader.over [1, 2, 3, 4, 5] 1).failed = false
      ∧ 4 ≤ (Reader.over [1, 2, 3, 4, 5] 1).remaining.length
      ∧ (readArrayU8 { reader := Reader.over [1, 2, 3, 4, 5] 1 }
        (⟨[0, 0, 0, 0], rfl⟩ : StdArray UInt8 4)).1.elems
          = (Reader.over [1, 2, 3, 4, 5] 1).remaining.take 4
      ∧ (readArrayU8 { reader := Reader.over [1, 2, 3, 4, 5] 1 }
        (⟨[0, 0, 0, 0], rfl⟩ : StdArray UInt8 4)).2.reader.remaining
          = (Reader.over [1, 2, 3, 4, 5] 1).remaining.drop 4 :=
  have h := readArrayU8_reads_leading_bytes 4 { reader := Reader.over [1, 2, 3, 4, 5] 1 }
    ⟨[0, 0, 0, 0], rfl⟩ rfl (by decide)
  ⟨rfl, by decide, h.1, h.2.2.2.1⟩

/-- C7: truncation handling for a fixed byte sequence. If the bytes written by the byte
overload of `writeArray` for an array of `N` bytes are truncated to any strict prefix
(`k < N` bytes), reading them back with the byte overload of `readArray` ends with the
context in the failed state: the read is never reported as successful. -/
theorem readArrayU8_truncated_fails (N : Nat) (array target : StdArray UInt8 N)
    (k version : Nat) (hk : k < N) :
    (readArrayU8
        { reader := Reader.over
            ((writeArrayU8 { writer := Writer.empty } array).writer.bytes.take k) version }
        target).2.reader.failed = true := by
  have hw : (writeArrayU8 { writer := Writer.empty } array).writer.bytes = array.elems := by
    rw [(writeArrayU8_appends_bytes N _ array)]; rfl
  rw [hw, readArrayU8_eq_generic, (readArray_eq_readSeq byteRead _ target).2]
  apply readSeq_byteRead_of_short target.elems _ rfl
  simp [Reader.over, Reader.remaining, target.size_eq, array.size_eq]
  omega

/-- Witness for C7: the four written bytes `[1, 2, 3, 4]` with the last one dropped. -/
theorem readArrayU8_truncated_fails_witness :
    (3 < 4)
      ∧ (readArrayU8
          { reader := Reader.over
              ((writeArrayU8 { writer := Writer.empty }
                (⟨[1, 2, 3, 4], rfl⟩ : StdArray UInt8 4)).writer.bytes.take 3) 1 }
          (⟨[0, 0, 0, 0], rfl⟩ : StdArray UInt8 4)).2.reader.failed = true :=
  ⟨by decide, readArrayU8_truncated_fails 4 ⟨[1, 2, 3, 4], rfl⟩ ⟨[0, 0, 0, 0], rfl⟩ 3 1
    (by decide)⟩

/-- The concrete scenario of the byte sequence `[1, 2, 3, 4]`: it is written as these four
bytes, read back as `[1, 2, 3, 4]`, and reading the record without its last byte fails. -/
theorem scenario_bytes_1234 :
    (writeArrayU8 { writer := Writer.empty }
        (⟨[1, 2, 3, 4], rfl⟩ : StdArray UInt8 4)).writer.bytes = [1, 2, 3, 4]
      ∧ (readArrayU8 { reader := Reader.over [1, 2, 3, 4] 1 }
        (⟨[0, 0, 0, 0], rfl⟩ : StdArray UInt8 4)).1.elems = [1, 2, 3, 4]
      ∧ (readArrayU8 { reader := Reader.over [1, 2, 3, 4] 1 }
        (⟨[0, 0, 0, 0], rfl⟩ : StdArray UInt8 4)).2.reader.failed = false
      ∧ (readArrayU8 { reader := Reader.over [1, 2, 3] 1 }
        (⟨[0, 0, 0, 0], rfl⟩ : StdArray UInt8 4)).2.reader.failed = true := by
  decide

end Serialize

/-! ## Part 4: lemmas and theorems about `TextInputPage.cpp` -/

/-! ### Buffers and C strings -/

theorem readAt_natCast (t : List Char) (n : Nat) : readAt t (n : Int) = t[n]? := by
  simp [readAt]

theorem writeAt_natCast (t : List Char) (n : Nat) (c : Char) (h : n < t.length) :
    writeAt t (n : Int) c = some (t.set n c) := by
  simp [writeAt, h]

theorem strlen_some : ∀ (t : List Char) (n : Nat), strlen t = some n →
    t[n]? = some NUL ∧ ∀ j, j < n → ∃ c, t[j]? = some c ∧ c ≠ NUL := by
  intro t
  induction t with
  | nil => intro n h; simp [strlen] at h
  | cons c cs ih =>
    intro n h
    by_cases hc : c = NUL
    · simp [strlen, hc] at h
      subst h
      simp [hc]
    · simp only [strlen, if_neg hc, Option.map_eq_some'] at h
      obtain ⟨k, hk, rfl⟩ := h
      obtain ⟨h1, h2⟩ := ih k hk
      refine ⟨by simpa using h1, ?_⟩
      intro j hj
      cases j with
      | zero => exact ⟨c, by simp, hc⟩
      | succ j => simpa using h2 j (by omega)

theorem strlen_of : ∀ (t : List Char) (n : Nat), t[n]? = some NUL →
    (∀ j, j < n → ∀ c, t[j]? = some c → c ≠ NUL) → strlen t = some n := by
  intro t
  induction t with
  | nil => intro n h; simp at h
  | cons c cs ih =>
    intro n h hlt
    cases n with
    | zero =>
      have hc : c = NUL := by simpa using h
      simp [strlen, hc]
    | succ n =>
      have hc : c ≠ NUL := hlt 0 (by omega) c (by simp)
      have := ih n (by simpa using h)
        (fun j hj d hd => hlt (j + 1) (by omega) d (by simpa using hd))
      simp [strlen, hc, this]

theorem strlen_lt_length (t : List Char) (n : Nat) (h : strlen t = some n) : n < t.length := by
  have h1 := (strlen_some t n h).1
  by_contra hlt
  rw [List.getElem?_eq_none (by omega)] at h1
  exact Option.noConfusion h1

theorem cstr_eq_take : ∀ (t : List Char) (n : Nat), strlen t = some n → cstr t = t.take n := by
  intro t
  induction t with
  | nil => intro n h; simp [strlen] at h
  | cons c cs ih =>
    intro n h
    by_cases hc : c = NUL
    · simp [strlen, hc] at h
      subst h
      simp [cstr, hc]
    · simp only [strlen, if_neg hc, Option.map_eq_some'] at h
      obtain ⟨k, hk, rfl⟩ := h
      have e : cstr (c :: cs) = c :: cstr cs := by simp [cstr, List.takeWhile_cons, hc]
      rw [e, ih k hk]
      rfl

namespace TextInputPage

/-! ### The two shifting loops -/

theorem insertLoop_spec (cur : Nat) :
    ∀ (fuel i : Nat) (text : List Char), cur + fuel = i → i < text.length →
      ∃ t, insertLoop (cur : Int) fuel (i : Int) text = some t ∧ t.length = text.length
        ∧ ∀ j : Nat, t[j]? = if cur < j ∧ j ≤ i then text[j - 1]? else text[j]? := by
  intro fuel
  induction fuel with
  | zero =>
    intro i text hi _
    have : i = cur := by omega
    subst this
    refine ⟨text, by simp [insertLoop], rfl, ?_⟩
    intro j
    rw [if_neg (by omega)]
  | succ fuel ih =>
    intro i text hi hlen
    have hgt : (i : Int) > (cur : Int) := by omega
    have hcast : (i : Int) - 1 = ((i - 1 : Nat) : Int) := by omega
    obtain ⟨v, hv⟩ : ∃ v, text[i - 1]? = some v :=
      ⟨text[i - 1], List.getElem?_eq_getElem (by omega)⟩
    obtain ⟨t, ht, hl, hj⟩ := ih (i - 1) (text.set i v) (by omega) (by simp; omega)
    refine ⟨t, ?_, by simpa using hl, ?_⟩
    · rw [insertLoop, if_pos hgt, hcast, readAt_natCast, hv, Option.some_bind,
        writeAt_natCast _ _ _ hlen, Option.some_bind]
      exact ht
    · intro j
      rw [hj j]
      simp only [List.getElem?_set]
      by_cases h1 : cur < j ∧ j ≤ i - 1
      · rw [if_pos h1, if_neg (by omega : ¬ i = j - 1), if_pos (by omega : cur < j ∧ j ≤ i)]
      · by_cases h2 : j = i
        · rw [if_neg h1, if_pos h2.symm, if_pos hlen, if_pos (by omega : cur < j ∧ j ≤ i),
            h2, hv]
        · rw [if_neg h1, if_neg (by omega : ¬ i = j),
            if_neg (by omega : ¬ (cur < j ∧ j ≤ i))]

theorem removeLoop_spec (m : Nat) :
    ∀ (fuel i : Nat) (text : List Char), i + fuel = m → m < text.length →
      ∃ t, removeLoop (m : Int) fuel (i : Int) text = some t ∧ t.length = text.length
        ∧ ∀ j : Nat, t[j]? = if i ≤ j ∧ j < m then text[j + 1]? else text[j]? := by
  intro fuel
  induction fuel with
  | zero =>
    intro i text hi _
    have : i = m := by omega
    subst this
    refine ⟨text, by simp [removeLoop], rfl, ?_⟩
    intro j
    rw [if_neg (by omega)]
  | succ fuel ih =>
    intro i text hi hlen
    have hlt : (i : Int) < (m : Int) := by omega
    have hcast : (i : Int) + 1 = ((i + 1 : Nat) : Int) := by omega
    obtain ⟨v, hv⟩ : ∃ v, text[i + 1]? = some v :=
      ⟨text[i + 1], List.getElem?_eq_getElem (by omega)⟩
    obtain ⟨t, ht, hl, hj⟩ := ih (i + 1) (text.set i v) (by omega) (by simp; omega)
    refine ⟨t, ?_, by simpa using hl, ?_⟩
    · rw [removeLoop, if_pos hlt, hcast, readAt_natCast, hv, Option.some_bind,
        writeAt_natCast _ _ _ (by omega), Option.some_bind]
      exact ht
    · intro j
      rw [hj j]
      simp only [List.getElem?_set]
      by_cases h1 : i + 1 ≤ j ∧ j < m
      · rw [if_pos h1, if_neg (by omega : ¬ i = j + 1), if_pos (by omega : i ≤ j ∧ j < m)]
      · by_cases h2 : j = i
        · rw [if_neg h1, if_pos h2.symm, if_pos (by omega : i < text.length),
            if_pos (by omega : i ≤ j ∧ j < m), h2, hv]
        · rw [if_neg h1, if_neg (by omega : ¬ i = j),
            if_neg (by omega : ¬ (i ≤ j ∧ j < m))]


/-! ### The invariant in terms of natural numbers -/

theorem Inv_nat (s : TextInputPage) (h : Inv s) :
    ∃ cur n m : Nat, s.cursorIndex = (cur : Int) ∧ strlen s.text = some n
      ∧ s.maxTextLength = (m : Int) ∧ cur ≤ n ∧ n ≤ m ∧ m + 1 ≤ s.text.length := by
  unfold Inv at h
  cases hs : strlen s.text with
  | none => rw [hs] at h; exact h.elim
  | some n =>
    rw [hs] at h
    obtain ⟨h0, h1, h2, h3⟩ := h
    obtain ⟨cur, hcur⟩ := Int.eq_ofNat_of_zero_le h0
    have hm0 : 0 ≤ s.maxTextLength := by
      have : (0 : Int) ≤ Int.ofNat n := Int.ofNat_nonneg n
      omega
    obtain ⟨m, hm⟩ := Int.eq_ofNat_of_zero_le hm0
    refine ⟨cur, n, m, hcur, rfl, hm, ?_, ?_, ?_⟩
    · rw [hcur] at h1; simp only [Int.ofNat_eq_coe] at h1; omega
    · rw [hm] at h2; simp only [Int.ofNat_eq_coe] at h2; omega
    · rw [hm] at h3; simp only [Int.ofNat_eq_coe] at h3; omega

theorem Inv_of_nat (s : TextInputPage) (cur n m : Nat) (hcur : s.cursorIndex = (cur : Int))
    (hn : strlen s.text = some n) (hm : s.maxTextLength = (m : Int))
    (h1 : cur ≤ n) (h2 : n ≤ m) (h3 : m + 1 ≤ s.text.length) : Inv s := by
  unfold Inv
  rw [hn, hcur, hm]
  simp only [Int.ofNat_eq_coe]
  omega

/-! ### What each operation does to a state that satisfies the invariant -/

theorem insert_spec (s : TextInputPage) (c : Char) (cur n m : Nat)
    (hcur : s.cursorIndex = (cur : Int)) (hn : strlen s.text = some n)
    (hm : s.maxTextLength = (m : Int)) (h1 : cur ≤ n) (h2 : n < m)
    (h3 : m + 1 ≤ s.text.length) (hc : c ≠ NUL) :
    ∃ t, insert s c = some { s with text := t, cursorIndex := (cur : Int) + 1 }
      ∧ t.length = s.text.length
      ∧ (∀ j : Nat, t[j]? = if j = cur then some c
          else if cur < j ∧ j ≤ m then s.text[j - 1]? else s.text[j]?)
      ∧ strlen t = some (n + 1) := by
  obtain ⟨t1, ht1, hl1, hj1⟩ := insertLoop_spec cur (m - cur) m s.text (by omega) (by omega)
  have hpt : ∀ j : Nat, (t1.set cur c)[j]? = if j = cur then some c
      else if cur < j ∧ j ≤ m then s.text[j - 1]? else s.text[j]? := by
    intro j
    rw [List.getElem?_set, hj1 j]
    by_cases hj : j = cur
    · rw [if_pos hj.symm, if_pos (by omega : cur < t1.length), if_pos hj]
    · rw [if_neg (by omega : ¬ cur = j), if_neg hj]
  obtain ⟨hz, hnz⟩ := strlen_some s.text n hn
  refine ⟨t1.set cur c, ?_, by simpa using hl1, hpt, ?_⟩
  · have e1 : (s.cursorIndex < s.maxTextLength) := by rw [hcur, hm]; omega
    have e2 : Int.ofNat n < s.maxTextLength := by
      rw [hm]; simp only [Int.ofNat_eq_coe]; omega
    have e3 : (s.maxTextLength - s.cursorIndex).toNat = m - cur := by rw [hcur, hm]; omega
    unfold insert
    rw [if_pos e1, hn, Option.some_bind, if_pos e2, e3, hcur, hm, ht1, Option.some_bind,
      writeAt_natCast _ _ _ (by omega), Option.map_some']
  · apply strlen_of
    · rw [hpt, if_neg (by omega : ¬ n + 1 = cur), if_pos (by omega : cur < n + 1 ∧ n + 1 ≤ m)]
      exact hz
    · intro j hj d hd
      rw [hpt] at hd
      by_cases hjc : j = cur
      · rw [if_pos hjc] at hd
        cases hd
        exact hc
      · rw [if_neg hjc] at hd
        by_cases hjm : cur < j ∧ j ≤ m
        · rw [if_pos hjm] at hd
          obtain ⟨d2, hd2, hne⟩ := hnz (j - 1) (by omega)
          rw [hd2] at hd
          cases hd
          exact hne
        · rw [if_neg hjm] at hd
          obtain ⟨d2, hd2, hne⟩ := hnz j (by omega)
          rw [hd2] at hd
          cases hd
          exact hne

theorem removeLoop_strlen (text : List Char) (i n m : Nat) (hn : strlen text = some n)
    (h1 : i < n) (h2 : n ≤ m) (h3 : m + 1 ≤ text.length) :
    ∃ t, removeLoop (m : Int) (m - i) (i : Int) text = some t ∧ t.length = text.length
      ∧ (∀ j : Nat, t[j]? = if i ≤ j ∧ j < m then text[j + 1]? else text[j]?)
      ∧ strlen t = some (n - 1) := by
  obtain ⟨t, ht, hl, hj⟩ := removeLoop_spec m (m - i) i text (by omega) (by omega)
  obtain ⟨hz, hnz⟩ := strlen_some text n hn
  refine ⟨t, ht, hl, hj, ?_⟩
  apply strlen_of
  · rw [hj, if_pos (by omega : i ≤ n - 1 ∧ n - 1 < m),
      show n - 1 + 1 = n by omega]
    exact hz
  · intro j hjn d hd
    rw [hj] at hd
    by_cases hjm : i ≤ j ∧ j < m
    · rw [if_pos hjm] at hd
      obtain ⟨d2, hd2, hne⟩ := hnz (j + 1) (by omega)
      rw [hd2] at hd
      cases hd
      exact hne
    · rw [if_neg hjm] at hd
      obtain ⟨d2, hd2, hne⟩ := hnz j (by omega)
      rw [hd2] at hd
      cases hd
      exact hne

theorem backspace_spec (s : TextInputPage) (cur n m : Nat)
    (hcur : s.cursorIndex = (cur : Int)) (hn : strlen s.text = some n)
    (hm : s.maxTextLength = (m : Int)) (h0 : 0 < cur) (h1 : cur ≤ n) (h2 : n ≤ m)
    (h3 : m + 1 ≤ s.text.length) :
    ∃ t, backspace s = some { s with text := t, cursorIndex := ((cur - 1 : Nat) : Int) }
      ∧ t.length = s.text.length
      ∧ (∀ j : Nat, t[j]? = if cur - 1 ≤ j ∧ j < m then s.text[j + 1]? else s.text[j]?)
      ∧ strlen t = some (n - 1) := by
  obtain ⟨t, ht, hl, hj, hs⟩ := removeLoop_strlen s.text (cur - 1) n m hn (by omega) h2 h3
  refine ⟨t, ?_, hl, hj, hs⟩
  have e1 : s.cursorIndex > 0 := by rw [hcur]; omega
  have e2 : s.cursorIndex - 1 = ((cur - 1 : Nat) : Int) := by rw [hcur]; omega
  have e3 : (s.maxTextLength - ((cur - 1 : Nat) : Int)).toNat = m - (cur - 1) := by
    rw [hm]; omega
  unfold backspace
  rw [if_pos e1, e2, e3, hm, ht, Option.map_some']

theorem del_spec (s : TextInputPage) (cur n m : Nat)
    (hcur : s.cursorIndex = (cur : Int)) (hn : strlen s.text = some n)
    (hm : s.maxTextLength = (m : Int)) (h1 : cur < n) (h2 : n ≤ m)
    (h3 : m + 1 ≤ s.text.length) :
    ∃ t, del s = some { s with text := t }
      ∧ t.length = s.text.length
      ∧ (∀ j : Nat, t[j]? = if cur ≤ j ∧ j < m then s.text[j + 1]? else s.text[j]?)
      ∧ strlen t = some (n - 1) := by
  obtain ⟨t, ht, hl, hj, hs⟩ := removeLoop_strlen s.text cur n m hn h1 h2 h3
  refine ⟨t, ?_, hl, hj, hs⟩
  obtain ⟨d, hd, hne⟩ := (strlen_some s.text n hn).2 cur h1
  have e3 : (s.maxTextLength - (cur : Int)).toNat = m - cur := by rw [hm]; omega
  unfold del
  rw [hcur, readAt_natCast, hd, Option.some_bind, if_pos hne, e3, hm, ht, Option.map_some']

theorem del_at_end (s : TextInputPage) (n : Nat)
    (hcur : s.cursorIndex = (n : Int)) (hn : strlen s.text = some n) :
    del s = some s := by
  have hz := (strlen_some s.text n hn).1
  unfold del
  rw [hcur, readAt_natCast, hz, Option.some_bind, if_neg (by simp)]

theorem moveRight_spec (s : TextInputPage) (cur n : Nat)
    (hcur : s.cursorIndex = (cur : Int)) (hn : strlen s.text = some n) (h1 : cur ≤ n) :
    moveRight s
      = some (if cur < n then { s with cursorIndex := ((cur + 1 : Nat) : Int) } else s) := by
  obtain ⟨hz, hnz⟩ := strlen_some s.text n hn
  unfold moveRight
  by_cases h : cur < n
  · obtain ⟨d, hd, hne⟩ := hnz cur h
    rw [hcur, readAt_natCast, hd, Option.map_some', if_pos hne, if_pos h]
    rfl
  · have : cur = n := by omega
    subst this
    rw [hcur, readAt_natCast, hz, Option.map_some', if_neg (by simp), if_neg h]

theorem clear_spec (s : TextInputPage) (h : 0 < s.text.length) :
    clear s = some { s with text := s.text.set 0 NUL, cursorIndex := 0 }
      ∧ strlen (s.text.set 0 NUL) = some 0 := by
  refine ⟨?_, ?_⟩
  · unfold clear
    have := writeAt_natCast s.text 0 NUL h
    simp only [Nat.cast_zero] at this
    rw [this, Option.map_some']
  · apply strlen_of
    · rw [List.getElem?_set, if_pos rfl, if_pos h]
    · intro j hj; omega


/-! ### Claims about the text editor -/

/-- C8: the editor invariant
`0 <= _cursorIndex <= strlen(_text) <= _maxTextLength <= sizeof(_text) - 1` is preserved by
`insert(c)` with `c != '\0'`, `backspace`, `del`, `clear`, `moveLeft` and `moveRight`.
Each of them returns a state (so every index it reads or writes in `_text` lies inside the
buffer), the capacity of the buffer is unchanged, and the state returned satisfies the
invariant again, which includes that `_text` holds a `'\0'`. -/
theorem editing_preserves_Inv (s : TextInputPage) (h : Inv s) :
    (∀ c : Char, c ≠ NUL →
        ∃ s1, insert s c = some s1 ∧ Inv s1 ∧ s1.text.length = s.text.length)
      ∧ (∃ s1, backspace s = some s1 ∧ Inv s1 ∧ s1.text.length = s.text.length)
      ∧ (∃ s1, del s = some s1 ∧ Inv s1 ∧ s1.text.length = s.text.length)
      ∧ (∃ s1, clear s = some s1 ∧ Inv s1 ∧ s1.text.length = s.text.length)
      ∧ (Inv (moveLeft s) ∧ (moveLeft s).text = s.text)
      ∧ (∃ s1, moveRight s = some s1 ∧ Inv s1 ∧ s1.text = s.text) := by
  obtain ⟨cur, n, m, hcur, hn, hm, h1, h2, h3⟩ := Inv_nat s h
  refine ⟨?_, ?_, ?_, ?_, ?_, ?_⟩
  · intro c hc
    by_cases hlt : n < m
    · obtain ⟨t, ht, hl, _, hs⟩ := insert_spec s c cur n m hcur hn hm h1 hlt h3 hc
      refine ⟨_, ht, ?_, hl⟩
      exact Inv_of_nat _ (cur + 1) (n + 1) m (by simp) hs hm (by omega) (by omega)
        (by rw [hl]; exact h3)
    · refine ⟨s, ?_, h, rfl⟩
      unfold insert
      by_cases e1 : s.cursorIndex < s.maxTextLength
      · rw [if_pos e1, hn, Option.some_bind, if_neg]
        rw [hm]; simp only [Int.ofNat_eq_coe]; omega
      · rw [if_neg e1]
  · by_cases h0 : 0 < cur
    · obtain ⟨t, ht, hl, _, hs⟩ := backspace_spec s cur n m hcur hn hm h0 h1 h2 h3
      refine ⟨_, ht, ?_, hl⟩
      exact Inv_of_nat _ (cur - 1) (n - 1) m rfl hs hm (by omega) (by omega)
        (by rw [hl]; exact h3)
    · refine ⟨s, ?_, h, rfl⟩
      unfold backspace
      rw [if_neg]
      rw [hcur]; omega
  · by_cases hlt : cur < n
    · obtain ⟨t, ht, hl, _, hs⟩ := del_spec s cur n m hcur hn hm hlt h2 h3
      refine ⟨_, ht, ?_, hl⟩
      exact Inv_of_nat _ cur (n - 1) m hcur hs hm (by omega) (by omega)
        (by rw [hl]; exact h3)
    · have : cur = n := by omega
      subst this
      exact ⟨s, del_at_end s cur hcur hn, h, rfl⟩
  · obtain ⟨hc1, hc2⟩ := clear_spec s (by omega)
    refine ⟨_, hc1, ?_, by simp⟩
    exact Inv_of_nat _ 0 0 m rfl hc2 hm (by omega) (by omega) (by simpa using h3)
  · refine ⟨?_, rfl⟩
    refine Inv_of_nat _ (cur - 1) n m ?_ hn hm (by omega) h2 h3
    show max 0 (s.cursorIndex - 1) = ((cur - 1 : Nat) : Int)
    rw [hcur]; omega
  · refine ⟨_, moveRight_spec s cur n hcur hn h1, ?_, ?_⟩
    · by_cases hlt : cur < n
      · rw [if_pos hlt]
        exact Inv_of_nat _ (cur + 1) n m rfl hn hm (by omega) h2 h3
      · rw [if_neg hlt]; exact h
    · by_cases hlt : cur < n
      · rw [if_pos hlt]
      · rw [if_neg hlt]

/-- Witness for C8: the buffer `"AB"` of capacity 5 with at most 4 characters and the cursor
after the `A`. -/
theorem editing_preserves_Inv_witness :
    Inv { text := ['A', 'B', NUL, NUL, NUL], maxTextLength := 4, selectedIndex := 0,
          cursorIndex := 1 }
      ∧ ∃ s1, backspace { text := ['A', 'B', NUL, NUL, NUL], maxTextLength := 4,
                          selectedIndex := 0, cursorIndex := 1 } = some s1
          ∧ Inv s1 ∧ s1.text.length = 5 :=
  ⟨by decide, (editing_preserves_Inv _ (by decide)).2.1⟩

/-- C10: `insert(c)` for `c != '\0'` in a state that satisfies the editor invariant, with
`len = strlen(_text)`. If `_cursorIndex < _maxTextLength` and `len < _maxTextLength`, the
resulting string is the first `_cursorIndex` characters of the old string, then `c`, then
the rest of the old string, its length is `len + 1`, and `_cursorIndex` has grown by one;
otherwise the state is unchanged. -/
theorem insert_at_cursor (s : TextInputPage) (c : Char) (len : Nat) (hc : c ≠ NUL)
    (hlen : strlen s.text = some len) (h : Inv s) :
    (s.cursorIndex < s.maxTextLength ∧ Int.ofNat len < s.maxTextLength →
        ∃ s1, insert s c = some s1
          ∧ cstr s1.text
            = (cstr s.text).take s.cursorIndex.toNat ++ c
              :: (cstr s.text).drop s.cursorIndex.toNat
          ∧ strlen s1.text = some (len + 1)
          ∧ s1.cursorIndex = s.cursorIndex + 1
          ∧ s1.maxTextLength = s.maxTextLength
          ∧ s1.selectedIndex = s.selectedIndex)
      ∧ (¬ (s.cursorIndex < s.maxTextLength ∧ Int.ofNat len < s.maxTextLength) →
        insert s c = some s) := by
  obtain ⟨cur, n, m, hcur, hn, hm, h1, h2, h3⟩ := Inv_nat s h
  have hnl : n = len := Option.some.inj (hn.symm.trans hlen)
  subst hnl
  refine ⟨?_, ?_⟩
  · intro hcond
    have hlt : n < m := by
      have := hcond.2
      rw [hm] at this; simp only [Int.ofNat_eq_coe] at this; omega
    obtain ⟨t, ht, hl, hpt, hs⟩ := insert_spec s c cur n m hcur hn hm h1 hlt h3 hc
    refine ⟨_, ht, ?_, hs, by simp [hcur], rfl, rfl⟩
    show cstr t = _
    rw [cstr_eq_take t (n + 1) hs, cstr_eq_take s.text n hn, hcur, Int.toNat_ofNat]
    have hn_lt := strlen_lt_length s.text n hn
    have hA : ((s.text.take n).take cur).length = cur := by
      simp only [List.length_take]; omega
    apply List.ext_getElem?
    intro j
    rw [List.getElem?_take, hpt j, List.getElem?_append, hA]
    by_cases hj1 : j < cur
    · rw [if_pos (by omega : j < n + 1), if_neg (by omega : ¬ j = cur),
        if_neg (by omega : ¬ (cur < j ∧ j ≤ m)), if_pos hj1,
        List.getElem?_take_of_lt hj1, List.getElem?_take_of_lt (by omega : j < n)]
    · rw [if_neg hj1]
      by_cases hj2 : j = cur
      · rw [if_pos (by omega : j < n + 1), if_pos hj2, hj2, Nat.sub_self]
        simp
      · rw [List.getElem?_cons, if_neg (by omega : ¬ j - cur = 0), List.getElem?_drop,
          show cur + (j - cur - 1) = j - 1 by omega, List.getElem?_take]
        by_cases hj3 : j < n + 1
        · rw [if_pos hj3, if_neg hj2, if_pos (by omega : cur < j ∧ j ≤ m),
            if_pos (by omega : j - 1 < n)]
        · rw [if_neg hj3, if_neg (by omega : ¬ j - 1 < n)]
  · intro hcond
    unfold insert
    by_cases e1 : s.cursorIndex < s.maxTextLength
    · rw [if_pos e1, hn, Option.some_bind, if_neg (fun e2 => hcond ⟨e1, e2⟩)]
    · rw [if_neg e1]

/-- Witness for C10: inserting `Z` after the `A` of `"AB"`. -/
theorem insert_at_cursor_witness :
    ∃ s1, insert { text := ['A', 'B', NUL, NUL, NUL], maxTextLength := 4, selectedIndex := 0,
                   cursorIndex := 1 } 'Z' = some s1
      ∧ cstr s1.text = ['A', 'Z', 'B'] ∧ s1.cursorIndex = 2 :=
  have h := (insert_at_cursor
    { text := ['A', 'B', NUL, NUL, NUL], maxTextLength := 4, selectedIndex := 0,
      cursorIndex := 1 } 'Z' 2 (by decide) (by decide) (by decide)).1 (by decide)
  h.elim fun s1 hs1 => ⟨s1, hs1.1, hs1.2.1.trans (by decide), hs1.2.2.2.1⟩


theorem sizeofCharacterSet_eq : sizeofCharacterSet = 38 := by decide

theorem insert_selectedIndex (s s1 : TextInputPage) (c : Char) (h : insert s c = some s1) :
    s1.selectedIndex = s.selectedIndex := by
  unfold insert at h
  split at h
  · cases hs : strlen s.text with
    | none => rw [hs] at h; cases h
    | some len =>
      rw [hs, Option.some_bind] at h
      split at h
      · simp only [Option.bind_eq_some, Option.map_eq_some'] at h
        obtain ⟨t1, _, t2, _, rfl⟩ := h
        rfl
      · cases h; rfl
  · cases h; rfl

theorem backspace_selectedIndex (s s1 : TextInputPage) (h : backspace s = some s1) :
    s1.selectedIndex = s.selectedIndex := by
  unfold backspace at h
  split at h
  · simp only [Option.map_eq_some'] at h
    obtain ⟨t, _, rfl⟩ := h
    rfl
  · cases h; rfl

theorem del_selectedIndex (s s1 : TextInputPage) (h : del s = some s1) :
    s1.selectedIndex = s.selectedIndex := by
  unfold del at h
  simp only [Option.bind_eq_some] at h
  obtain ⟨c, _, h⟩ := h
  split at h
  · simp only [Option.map_eq_some'] at h
    obtain ⟨t, _, rfl⟩ := h
    rfl
  · cases h; rfl

theorem clear_selectedIndex (s s1 : TextInputPage) (h : clear s = some s1) :
    s1.selectedIndex = s.selectedIndex := by
  unfold clear at h
  simp only [Option.map_eq_some'] at h
  obtain ⟨t, _, rfl⟩ := h
  rfl

theorem moveRight_selectedIndex (s s1 : TextInputPage) (h : moveRight s = some s1) :
    s1.selectedIndex = s.selectedIndex := by
  unfold moveRight at h
  simp only [Option.map_eq_some'] at h
  obtain ⟨c, _, rfl⟩ := h
  split <;> rfl

theorem keyPress_selectedIndex (s s1 : TextInputPage) (key : Key)
    (h : keyPress s key = some s1) : s1.selectedIndex = s.selectedIndex := by
  unfold keyPress at h
  simp only [Option.bind_eq_some] at h
  obtain ⟨a, ha, b, hb, c, hc, h⟩ := h
  have e1 : a.selectedIndex = s.selectedIndex := by
    split at ha
    · split at ha
      · exact backspace_selectedIndex _ _ ha
      · split at ha
        · exact del_selectedIndex _ _ ha
        · split at ha
          · exact clear_selectedIndex _ _ ha
          · split at ha
            · cases ha; rfl
            · split at ha <;> (cases ha; rfl)
    · cases ha; rfl
  have e2 : b.selectedIndex = a.selectedIndex := by
    split at hb <;> (cases hb; rfl)
  have e3 : c.selectedIndex = b.selectedIndex := by
    split at hc
    · exact moveRight_selectedIndex _ _ hc
    · cases hc; rfl
  have e4 : s1.selectedIndex = c.selectedIndex := by
    split at h
    · simp only [Option.bind_eq_some] at h
      obtain ⟨ch, _, h⟩ := h
      exact insert_selectedIndex _ _ _ h
    · cases h; rfl
  rw [e4, e3, e2, e1]

theorem characterAt_isSome (i : Int) (h0 : 0 ≤ i) (h37 : i ≤ 37) :
    (characterAt i).isSome = true := by
  obtain ⟨k, rfl⟩ := Int.eq_ofNat_of_zero_le h0
  have hk : k < characterSet.length := by
    have : characterSet.length = 38 := by decide
    omega
  unfold characterAt
  rw [readAt_natCast, List.getElem?_eq_getElem hk]
  rfl

theorem encoder_bounds (w : Nat) (s : TextInputPage) (value : Int) :
    0 ≤ (encoder w s value).selectedIndex ∧ (encoder w s value).selectedIndex ≤ 37 := by
  show 0 ≤ toSizeT w (toSizeT w (s.selectedIndex + value) + sizeofCharacterSet)
        % sizeofCharacterSet
    ∧ toSizeT w (toSizeT w (s.selectedIndex + value) + sizeofCharacterSet)
        % sizeofCharacterSet ≤ 37
  rw [sizeofCharacterSet_eq]
  generalize toSizeT w (toSizeT w (s.selectedIndex + value) + ((38 : Nat) : Int)) = x
  omega

/-- C9: character selection stays in bounds. For every `_selectedIndex` (in particular
every one in `0..37`), every encoder event value and every width `w` of `size_t`,
`encoder` leaves `_selectedIndex` in `0..37`, so the lookup `characterSet[_selectedIndex]`
is inside the 38-entry table; and in every state reachable from `show` through `encoder`
and `keyPress`, `_selectedIndex` is in `0..37` and the lookup is inside the table. -/
theorem encoder_selectedIndex_in_bounds (w : Nat) :
    (∀ (s : TextInputPage) (value : Int),
        0 ≤ (encoder w s value).selectedIndex ∧ (encoder w s value).selectedIndex ≤ 37
          ∧ (characterAt (encoder w s value).selectedIndex).isSome = true)
      ∧ ∀ (copy : List Char → List Char → Nat → List Char) (r : TextInputPage),
          Reachable w copy r →
            0 ≤ r.selectedIndex ∧ r.selectedIndex ≤ 37
              ∧ (characterAt r.selectedIndex).isSome = true := by
  refine ⟨?_, ?_⟩
  · intro s value
    have hb := encoder_bounds w s value
    exact ⟨hb.1, hb.2, characterAt_isSome _ hb.1 hb.2⟩
  · intro copy r hr
    have hr2 : 0 ≤ r.selectedIndex ∧ r.selectedIndex ≤ 37 := by
      induction hr with
      | shown s0 text maxTextLength s1 hshow =>
        unfold TextInputPage.show at hshow
        simp only [Option.map_eq_some'] at hshow
        obtain ⟨len, _, rfl⟩ := hshow
        exact ⟨Int.le_refl 0, (by show (0 : Int) ≤ 37; omega)⟩
      | encoder s1 v _ _ => exact encoder_bounds w s1 v
      | keyPress s1 key s2 _ hk ih =>
        rw [keyPress_selectedIndex s1 s2 key hk]; exact ih
    exact ⟨hr2.1, hr2.2, characterAt_isSome _ hr2.1 hr2.2⟩

/-- Witness for C9: with the copy that stores an empty string, `show` followed by
`encoder(-1)` on a 32-bit `size_t` is a reachable state, and its selection is in bounds. -/
theorem encoder_selectedIndex_in_bounds_witness :
    Reachable 32 (fun dst _ _ => dst.set 0 NUL)
        (encoder 32
          { text := [NUL, NUL], maxTextLength := 1, selectedIndex := 0, cursorIndex := 0 }
          (-1))
      ∧ (0 ≤ (encoder 32
          { text := [NUL, NUL], maxTextLength := 1, selectedIndex := 0, cursorIndex := 0 }
          (-1)).selectedIndex
        ∧ (encoder 32
          { text := [NUL, NUL], maxTextLength := 1, selectedIndex := 0, cursorIndex := 0 }
          (-1)).selectedIndex ≤ 37
        ∧ (characterAt (encoder 32
          { text := [NUL, NUL], maxTextLength := 1, selectedIndex := 0, cursorIndex := 0 }
          (-1)).selectedIndex).isSome = true) :=
  have hreach : Reachable 32 (fun dst _ _ => dst.set 0 NUL)
      (encoder 32
        { text := [NUL, NUL], maxTextLength := 1, selectedIndex := 0, cursorIndex := 0 }
        (-1)) :=
    Reachable.encoder _ _
      (Reachable.shown
        { text := ['X', NUL], maxTextLength := 0, selectedIndex := 5, cursorIndex := 0 }
        [] 7 _ (by decide))
  ⟨hreach, (encoder_selectedIndex_in_bounds 32).2 _ _ hreach⟩

/-- One encoder step backwards from the selection `0` wraps to the last character. -/
theorem encoder_wraps_backwards :
    (encoder 32
      { text := [NUL, NUL], maxTextLength := 1, selectedIndex := 0, cursorIndex := 0 }
      (-1)).selectedIndex = 37 := by
  decide

/-! ### Claims about `show`, the encoder ring and undoing an insertion -/

theorem show_spec (copy : List Char → List Char → Nat → List Char) (s0 s : TextInputPage)
    (text : List Char) (maxTextLength : Nat)
    (hshow : TextInputPage.show copy s0 text maxTextLength = some s) :
    ∃ len : Nat, strlen s.text = some len
      ∧ s.text = copy s0.text text s0.text.length
      ∧ s.cursorIndex = (len : Int)
      ∧ s.maxTextLength = ((min (s0.text.length - 1) maxTextLength : Nat) : Int)
      ∧ s.selectedIndex = 0 := by
  unfold TextInputPage.show at hshow
  simp only [Option.map_eq_some'] at hshow
  obtain ⟨len, hlen, rfl⟩ := hshow
  exact ⟨len, hlen, rfl, rfl, rfl, rfl⟩

theorem show_Inv_iff (copy : List Char → List Char → Nat → List Char) (s0 s : TextInputPage)
    (text : List Char) (maxTextLength len : Nat)
    (hcap : (copy s0.text text s0.text.length).length = s0.text.length)
    (hshow : TextInputPage.show copy s0 text maxTextLength = some s)
    (hlen : strlen s.text = some len) :
    Inv s ↔ len ≤ maxTextLength := by
  obtain ⟨n, hn, htext, hcur, hmax, _⟩ := show_spec copy s0 s text maxTextLength hshow
  have hnl : n = len := Option.some.inj (hn.symm.trans hlen)
  subst hnl
  have hlt := strlen_lt_length s.text n hn
  rw [htext, hcap] at hlt
  have hlen_eq : s.text.length = s0.text.length := by rw [htext, hcap]
  unfold Inv
  rw [hn, hcur, hmax, hlen_eq]
  simp only [Int.ofNat_eq_coe]
  omega

/-- C11, where the code departs from it: `show` keeps an initial text that is longer than
`maxTextLength`. On a 16-byte buffer, with the text `"ABCDEFGH"` and `maxTextLength = 3`,
`show` leaves `strlen(_text) = 8`, `_maxTextLength = 3` and `_cursorIndex = 8`, so
`strlen(_text) <= _maxTextLength` and the editor invariant fail; a following `backspace`
moves the cursor to 7 and deletes nothing. -/
theorem show_keeps_text_longer_than_maxTextLength :
    ∃ s : TextInputPage,
      TextInputPage.show boundedCopy
          { text := List.replicate 16 NUL, maxTextLength := 0, selectedIndex := 0,
            cursorIndex := 0 }
          ['A', 'B', 'C', 'D', 'E', 'F', 'G', 'H'] 3 = some s
        ∧ strlen s.text = some 8
        ∧ s.maxTextLength = 3
        ∧ s.cursorIndex = 8
        ∧ ¬ Inv s
        ∧ backspace s = some { s with cursorIndex := 7 } :=
  ⟨{ text := ['A', 'B', 'C', 'D', 'E', 'F', 'G', 'H', NUL, NUL, NUL, NUL, NUL, NUL, NUL, NUL],
     maxTextLength := 3, selectedIndex := 0, cursorIndex := 8 },
    by decide, by decide, rfl, rfl, by decide, by decide⟩

theorem encoder_residue_in_range (w : Nat) (s : TextInputPage) (value : Int)
    (h1 : -38 ≤ s.selectedIndex + value) (h2 : s.selectedIndex + value + 38 < 2 ^ w) :
    (encoder w s value).selectedIndex = (s.selectedIndex + value) % 38 := by
  show toSizeT w (toSizeT w (s.selectedIndex + value) + sizeofCharacterSet)
      % sizeofCharacterSet = (s.selectedIndex + value) % 38
  rw [sizeofCharacterSet_eq]
  unfold toSizeT
  have e1 : ((s.selectedIndex + value) % 2 ^ w + ((38 : Nat) : Int)) % 2 ^ w
      = s.selectedIndex + value + 38 := by
    rw [Int.emod_add_emod]
    exact Int.emod_eq_of_lt (by omega) h2
  rw [e1]
  omega

/-- C12, where the code departs from it: for an encoder value below `-(_selectedIndex + 38)`
the new selection is not the residue of `_selectedIndex + v` modulo 38. With
`_selectedIndex = 0` and `v = -39` the residue is 37, but `encoder` selects 5 when `size_t`
has 32 bits and 35 when it has 64 bits. -/
theorem encoder_not_residue_below_minus_38 :
    (encoder 32
        { text := [NUL], maxTextLength := 0, selectedIndex := 0, cursorIndex := 0 }
        (-39)).selectedIndex = 5
      ∧ (encoder 64
        { text := [NUL], maxTextLength := 0, selectedIndex := 0, cursorIndex := 0 }
        (-39)).selectedIndex = 35
      ∧ ((0 : Int) + (-39)) % 38 = 37 := by
  decide

/-- C13: `backspace` undoes `insert`. In a state that satisfies the editor invariant, with
`len = strlen(_text) < _maxTextLength`, and for `c != '\0'`, `insert(c)` followed by
`backspace()` returns a state whose string and `_cursorIndex` are those before the
`insert`. -/
theorem backspace_undoes_insert (s : TextInputPage) (c : Char) (len : Nat) (hc : c ≠ NUL)
    (hlen : strlen s.text = some len) (h : Inv s) (hlt : Int.ofNat len < s.maxTextLength) :
    ∃ s1 s2, insert s c = some s1 ∧ backspace s1 = some s2
      ∧ cstr s2.text = cstr s.text
      ∧ s2.cursorIndex = s.cursorIndex
      ∧ strlen s2.text = some len
      ∧ s2.maxTextLength = s.maxTextLength
      ∧ s2.selectedIndex = s.selectedIndex := by
  obtain ⟨cur, n, m, hcur, hn, hm, h1, h2, h3⟩ := Inv_nat s h
  have hnl : n = len := Option.some.inj (hn.symm.trans hlen)
  subst hnl
  have hnm : n < m := by
    rw [hm] at hlt; simp only [Int.ofNat_eq_coe] at hlt; omega
  obtain ⟨t1, ht1, hl1, hp1, hs1⟩ := insert_spec s c cur n m hcur hn hm h1 hnm h3 hc
  obtain ⟨t2, ht2, hl2, hp2, hs2⟩ := backspace_spec
    { s with text := t1, cursorIndex := (cur : Int) + 1 } (cur + 1) (n + 1) m
    (by simp) hs1 hm (by omega) (by omega) (by omega) (by show m + 1 ≤ t1.length; omega)
  have hs2n : strlen t2 = some n := hs2
  refine ⟨_, _, ht1, ht2, ?_, ?_, hs2n, rfl, rfl⟩
  · show cstr t2 = cstr s.text
    rw [cstr_eq_take t2 n hs2n, cstr_eq_take s.text n hn]
    apply List.ext_getElem?
    intro j
    rw [List.getElem?_take, List.getElem?_take]
    by_cases hj : j < n
    · rw [if_pos hj, if_pos hj, hp2 j]
      show (if cur + 1 - 1 ≤ j ∧ j < m then t1[j + 1]? else t1[j]?) = s.text[j]?
      by_cases hjc : cur ≤ j
      · rw [if_pos (by omega : cur + 1 - 1 ≤ j ∧ j < m), hp1 (j + 1),
          if_neg (by omega : ¬ j + 1 = cur), if_pos (by omega : cur < j + 1 ∧ j + 1 ≤ m)]
        rfl
      · rw [if_neg (by omega : ¬ (cur + 1 - 1 ≤ j ∧ j < m)), hp1 j,
          if_neg (by omega : ¬ j = cur), if_neg (by omega : ¬ (cur < j ∧ j ≤ m))]
    · rw [if_neg hj, if_neg hj]
  · show ((cur + 1 - 1 : Nat) : Int) = s.cursorIndex
    rw [hcur]; simp

/-- Witness for C13: inserting `Z` after the `A` of `"AB"` and pressing backspace. -/
theorem backspace_undoes_insert_witness :
    Inv { text := ['A', 'B', NUL, NUL, NUL], maxTextLength := 4, selectedIndex := 0,
          cursorIndex := 1 }
      ∧ ∃ s1 s2,
          insert { text := ['A', 'B', NUL, NUL, NUL], maxTextLength := 4, selectedIndex := 0,
                   cursorIndex := 1 } 'Z' = some s1
            ∧ backspace s1 = some s2
            ∧ cstr s2.text = ['A', 'B'] ∧ s2.cursorIndex = 1 :=
  have h := backspace_undoes_insert
    { text := ['A', 'B', NUL, NUL, NUL], maxTextLength := 4, selectedIndex := 0,
      cursorIndex := 1 } 'Z' 2 (by decide) (by decide) (by decide) (by decide)
  ⟨by decide,
    h.elim fun s1 h1 => h1.elim fun s2 h2 =>
      ⟨s1, s2, h2.1, h2.2.1, h2.2.2.1.trans (by decide), h2.2.2.2.1⟩⟩

end TextInputPage
